import Mathlib

/-!
Verification of the MlxVadSRT core against its specification.

Python strings are embedded as `List Char` (`Str`), so that Python's
`str.split`, `"\n".join`, `str.strip` and slicing become executable list
functions.  Machine floats that only ever carry exact timestamp arithmetic
are embedded as `ℚ`.  Fallible code returns `Except`/`Option`.  External
collaborators (the HTTP API, the Whisper engine, the filesystem) enter as
explicit parameters describing their observable outcomes.
-/

/-- A Python string, embedded as its list of characters. -/
abbrev Str := List Char

/-- Python `s.split("\n")` (no maxsplit): split a string at every newline. -/
def splitOnNl : Str → List Str
  | [] => [[]]
  | c :: rest =>
    match splitOnNl rest with
    | [] => [[c]]
    | h :: t => if c = '\n' then [] :: h :: t else (c :: h) :: t

/-- Python `"\n".join(parts)`. -/
def joinNl : List Str → Str
  | [] => []
  | [x] => x
  | x :: rest => x ++ '\n' :: joinNl rest

/-- Python `s.split("\n\n")`: split at every leftmost non-overlapping
occurrence of a blank line (two consecutive newlines). -/
def splitOnNlNl : Str → List Str
  | [] => [[]]
  | [c] => [[c]]
  | c1 :: c2 :: rest =>
    if c1 = '\n' ∧ c2 = '\n' then [] :: splitOnNlNl rest
    else
      match splitOnNlNl (c2 :: rest) with
      | [] => [[c1]]
      | h :: t => (c1 :: h) :: t

/-- Python `"\n\n".join(parts)`. -/
def joinSepNlNl : List Str → Str
  | [] => []
  | [x] => x
  | x :: rest => x ++ '\n' :: '\n' :: joinSepNlNl rest

/-- Whether a string contains two consecutive newlines. -/
def hasNlNl : Str → Bool
  | c1 :: c2 :: rest => (c1 = '\n' && c2 = '\n') || hasNlNl (c2 :: rest)
  | _ => false

/-- The whitespace class used for Python `str.strip()` (the characters
that actually occur at entry boundaries are covered). -/
def isWsChar (c : Char) : Bool := c.isWhitespace

/-- Python `s.strip()`: drop whitespace from both ends. -/
def pyStrip (l : Str) : Str :=
  ((l.dropWhile isWsChar).reverse.dropWhile isWsChar).reverse

/-! ## Subtitle file reader/writer (src/core/utils.py)

File I/O is embedded as the file's content: `_save_srt` produces the
content it writes, `_parse_srt_file` consumes the content it read (its
existence check precedes the read and is dropped). -/

/-- `_save_srt` (src/core/utils.py lines 60–63): the written file content is
`"\n\n".join(srt_entries) + "\n"`. -/
def save_srt (srt_entries : List Str) : Str :=
  joinSepNlNl srt_entries ++ ['\n']

/-- `_parse_srt_file` (src/core/utils.py lines 66–84) applied to the file
content: strip, reject empty, split on blank lines, strip each block, drop
empty blocks, reject an empty block list. -/
def parse_srt_file (content : Str) : Option (List Str) :=
  let c := pyStrip content
  if c = [] then none
  else
    let entries := ((splitOnNlNl c).map pyStrip).filter (fun e => e ≠ [])
    if entries = [] then none else some entries

/-- A well-formed SRT entry as the writer produces and the reader expects:
non-empty, without leading/trailing whitespace (index digit first,
text last), and without a blank line inside. -/
def wellFormedEntry (e : Str) : Prop :=
  e ≠ [] ∧ pyStrip e = e ∧ hasNlNl e = false

/-- A well-formed cue list: non-empty with well-formed entries. -/
def wellFormedSrt (es : List Str) : Prop :=
  es ≠ [] ∧ ∀ e ∈ es, wellFormedEntry e

/-! ## Translation coordinator (src/core/translate.py)

`TRANSLATE_BATCH_SIZE` and `TRANSLATE_MAX_RETRIES` are the constants of
`core/config.py`.  The configured maximum worker count
(`TRANSLATE_MAX_WORKERS`, whose defining module is not part of the
snapshot) is threaded through as a parameter `W`; only `min W totalBatches`
is ever used.  Network attempts are embedded as their observable outcomes:
an attempt either raises (`none`) or yields a response parsed as an array
of strings (`some`); an uncaught worker-thread exception is
`BatchOutcome.threadError`. -/

def TRANSLATE_BATCH_SIZE : Nat := 50

def TRANSLATE_MAX_RETRIES : Nat := 5

/-- Python `entry.split("\n", 2)`: at most two splits, remainder rejoined. -/
def pySplit2 (entry : Str) : List Str :=
  match splitOnNl entry with
  | a :: b :: c :: rest => [a, b, joinNl (c :: rest)]
  | parts => parts

/-- `"\n".join(parts[:2])` — the header (index line plus time-range line)
kept aside by `translate_srt_entries`. -/
def entryHeader (entry : Str) : Str := joinNl ((pySplit2 entry).take 2)

/-- `parts[2] if len(parts) > 2 else ""` — the translatable text payload. -/
def entryText (entry : Str) : Str :=
  match pySplit2 entry with
  | _ :: _ :: t :: _ => t
  | _ => []

/-- `_pad_or_truncate`: extend a short result with the original tail, then
truncate to the batch length. -/
def pad_or_truncate (translated batch : List Str) : List Str :=
  (translated ++ batch.drop translated.length).take batch.length

/-- One translation attempt as observed by `_translate_single_batch`:
`none` models an exception (HTTP error, parse error, non-array response),
`some arr` a response parsed as an array of strings. -/
abbrev Attempt := Option (List Str)

/-- The retry loop of `_translate_single_batch`: state is
(`translated`, `success`, `got_result`); every parsed response overwrites
`translated` and sets `got_result`; the loop breaks on the first response of
exactly the batch length. -/
def attempt_loop (batch translated : List Str) (gotResult : Bool) :
    List Attempt → List Str × Bool × Bool
  | [] => (translated, false, gotResult)
  | o :: rest =>
    match o with
    | none => attempt_loop batch translated gotResult rest
    | some result =>
      if result.length = batch.length then (result, true, true)
      else attempt_loop batch result true rest

/-- `_translate_single_batch` (src/core/translate.py lines 314–366), with the
sequence of attempt outcomes made explicit.  The retry loop runs through
`tries` (one entry per attempt, `TRANSLATE_MAX_RETRIES` in the source),
breaking on the first exact-length response; then the exhaustion policy of
lines 348–361 is applied. -/
def translate_single_batch (batch : List Str) (tries : List Attempt) : List Str :=
  let r := attempt_loop batch batch false tries
  let translated := r.1
  let success := r.2.1
  let gotResult := r.2.2
  if success then translated
  else if gotResult ∧ translated.length ≠ batch.length then pad_or_truncate translated batch
  else if gotResult = false then batch
  else translated

/-- The last parsed array among a batch's attempts (the value `translated`
holds when the retry loop exhausts without success). -/
def lastSome (ts : List Attempt) : Attempt := (ts.filterMap id).getLast?

/-- The observable outcome of one worker-pool batch: an exception that
escapes the worker thread (caught at lines 181–186 and replaced by the
original slice), or the per-attempt outcomes consumed by
`_translate_single_batch`. -/
inductive BatchOutcome
  | threadError
  | tries (ts : List Attempt)

/-- The slice `texts[(k-1)*B : (k-1)*B + B]` handed to batch number `k`
(batch numbers start at 1, as in the source). -/
def batchSlice (texts : List Str) (k : Nat) : List Str :=
  (texts.drop ((k - 1) * TRANSLATE_BATCH_SIZE)).take TRANSLATE_BATCH_SIZE

/-- `math.ceil(len(texts) / TRANSLATE_BATCH_SIZE)`. -/
def totalBatchCount (texts : List Str) : Nat :=
  (texts.length + TRANSLATE_BATCH_SIZE - 1) / TRANSLATE_BATCH_SIZE

/-- `batch_results[k]`: the list stored for batch number `k` — the value of
`_translate_single_batch`, or the original slice if the worker thread raised
(lines 177–186). -/
def batchResult (texts : List Str) (outcome : Nat → BatchOutcome) (k : Nat) : List Str :=
  match outcome k with
  | .threadError => batchSlice texts k
  | .tries ts => translate_single_batch (batchSlice texts k) ts

/-- `translated_texts` (lines 188–191): batch results concatenated in batch
number order 1, 2, …, `totalBatches`. -/
def translatedTexts (entries : List Str) (outcome : Nat → BatchOutcome) : List Str :=
  (List.range (totalBatchCount (entries.map entryText))).flatMap
    (fun i => batchResult (entries.map entryText) outcome (i + 1))

/-- `translate_srt_entries` (src/core/translate.py lines 135–195).

Each entry is split into header and text; texts are partitioned into
contiguous batches of `TRANSLATE_BATCH_SIZE`; each batch is resolved through
`_translate_single_batch` (or kept verbatim if its worker thread died);
results are reassembled in batch-number order and re-paired with the headers
by position (`zip`, then header-newline-text).
`ThreadPoolExecutor(max_workers=w)` raises `ValueError` when `w ≤ 0`
(CPython `concurrent.futures`); with `workers = min W totalBatches` that
happens exactly when `min W totalBatches = 0`, modelled by the
`Except.error` branch. -/
def translate_srt_entries (W : Nat) (entries : List Str)
    (outcome : Nat → BatchOutcome) : Except Str (List Str) :=
  if min W (totalBatchCount (entries.map entryText)) = 0 then
    .error ("max_workers must be greater than 0".toList)
  else
    .ok (List.zipWith (fun h t => h ++ '\n' :: t) (entries.map entryHeader)
      (translatedTexts entries outcome))

/-! ## Segment transcription (src/core/transcribe.py)

The Whisper engine is embedded as a function `tr` from the audio slice it
receives to the sub-results `result["segments"]` it returns; the audio is a
list of exact sample values. -/

def SAMPLE_RATE : Nat := 16000

/-- One VAD speech region: the dict with sample keys start and end. -/
structure SpeechSegment where
  startSample : Nat
  endSample : Nat
deriving DecidableEq

/-- One Whisper sub-result: relative start/end timestamps in seconds plus
the text. -/
structure WhisperSub where
  startT : ℚ
  endT : ℚ
  text : Str
deriving DecidableEq

/-- One produced subtitle entry, kept structured; `_transcribe_segments`
renders it as counter, formatted time range, text.  The claims are about
the index and the second-valued timestamps. -/
structure Cue where
  index : Nat
  startSec : ℚ
  endSec : ℚ
  text : Str
deriving DecidableEq

/-- `np.max(np.abs(chunk))` on a non-empty chunk (absolute values are
non-negative, so folding from 0 agrees with NumPy's max there; NumPy raises
on an empty chunk, which no in-bounds VAD segment produces). -/
def maxAbs (l : List ℚ) : ℚ := l.foldl (fun m x => max m |x|) 0

/-- The near-silence threshold `1e-6` of src/core/transcribe.py line 197. -/
def SILENCE_EPS : ℚ := 1 / 1000000

/-- The body of the per-segment loop of `_transcribe_segments`
(src/core/transcribe.py lines 191–229) for one segment: skip a near-silent
chunk; otherwise clip each sub-result's relative timestamps to
`[0, chunk_duration]`, discard empty texts and empty clipped intervals,
shift by the segment's absolute start and assign consecutive indices from
`counter`.  `whisper_sub_step` is the body handling one sub-result;
`transcribe_segment` wires it to the chunk and the silence guard, returning
the produced cues and the updated counter. -/
def whisper_sub_step (start_sec chunk_duration : ℚ) (acc : List Cue × Nat)
    (sub : WhisperSub) : List Cue × Nat :=
  let text := pyStrip sub.text
  if text = [] then acc
  else
    let seg_start := max 0 sub.startT
    let seg_end := min sub.endT chunk_duration
    if seg_start ≥ seg_end then acc
    else
      (acc.1 ++ [⟨acc.2, start_sec + seg_start, start_sec + seg_end, text⟩],
        acc.2 + 1)

/-- The per-segment part of `_transcribe_segments`: silence guard, one
transcription call, then the sub-result loop. -/
def transcribe_segment (tr : List ℚ → List WhisperSub) (wav : List ℚ)
    (seg : SpeechSegment) (counter : Nat) : List Cue × Nat :=
  let start_sec : ℚ := (seg.startSample : ℚ) / (SAMPLE_RATE : ℚ)
  let end_sec : ℚ := (seg.endSample : ℚ) / (SAMPLE_RATE : ℚ)
  let chunk_duration := end_sec - start_sec
  let audio_chunk := (wav.drop seg.startSample).take (seg.endSample - seg.startSample)
  if maxAbs audio_chunk < SILENCE_EPS then ([], counter)
  else
    (tr audio_chunk).foldl (whisper_sub_step start_sec chunk_duration) ([], counter)

/-- One iteration of the outer loop of `_transcribe_segments`: append the
segment's cues and thread the counter. -/
def segment_fold_step (tr : List ℚ → List WhisperSub) (wav : List ℚ)
    (acc : List Cue × Nat) (seg : SpeechSegment) : List Cue × Nat :=
  let r := transcribe_segment tr wav seg acc.2
  (acc.1 ++ r.1, r.2)

/-- `_transcribe_segments` (src/core/transcribe.py lines 179–234): the
per-segment loop threading the cue counter, which starts at 1. -/
def transcribe_segments (tr : List ℚ → List WhisperSub) (wav : List ℚ)
    (segments : List SpeechSegment) : List Cue :=
  (segments.foldl (segment_fold_step tr wav) ([], 1)).1

/-! ## Pipeline orchestrator (src/core/pipeline.py)

Filesystem paths in this module are never inspected character by character,
so they stay Lean `String`s.  The stages called inside `run_task`'s `try`
block are embedded as their observable outcomes (`StageEnv`); a raised
Python exception is a `PyExc` value. -/

/-- A raised Python exception, as `run_task`'s handlers distinguish them:
`KeyboardInterrupt` (not an `Exception`, so never caught there),
`DependencyError` — modelled from the spec: the class is defined in
`core/utils.py`, which the snapshot has only in an older revision without
it; per spec §7 it is the "missing required external tool/model" error and
an ordinary `Exception` subclass — and every other `Exception` (the carried
message is `str(e)`). -/
inductive PyExc
  | keyboardInterrupt
  | dependencyError (msg : String)
  | other (msg : String)
deriving DecidableEq

/-- Python truthiness of an `Optional[str]`: `None` and `""` are falsy. -/
def truthy : Option String → Bool
  | none => false
  | some s => s ≠ ""

/-- `TaskParams` (src/core/pipeline.py lines 17–29) with its dataclass
defaults. -/
structure TaskParams where
  audio : Option String := none
  video : Option String := none
  srt : Option String := none
  lang : String := "auto"
  «to» : Option String := none
  model : String := "mlx-community/whisper-large-v3-mlx"
  output : Option String := none
  denoise : Bool := false
  embed : Bool := false
  translate_config : Option (String × String × String) := none
deriving DecidableEq

/-- `TaskResult` (src/core/pipeline.py lines 32–37). -/
structure TaskResult where
  success : Bool := false
  output_path : Option String := none
  errors : List String := []
deriving DecidableEq

/-- `validate_params` (src/core/pipeline.py lines 43–74), literally:
the pure-embed combination short-circuits, then errors accumulate. -/
def validate_params (p : TaskParams) : List String :=
  if p.embed ∧ truthy p.video ∧ truthy p.srt ∧ ¬ truthy p.«to» then
    if ¬ truthy p.audio then []
    else ["嵌入模式下不能同时指定音频文件。"]
  else
    let inputCount := ([p.audio, p.video, p.srt].filter (fun x => truthy x)).length
    if inputCount = 0 then ["请指定音频、视频或 SRT 文件。"]
    else
      (if p.embed ∧ ¬ truthy p.video then
        ["嵌入字幕需要视频文件（--embed 必须配合视频使用）。"] else []) ++
      (if inputCount > 1 ∧
          ¬ (p.embed ∧ truthy p.video ∧ truthy p.srt ∧ ¬ truthy p.audio) then
        ["音频、视频、SRT 不能同时使用。"] else []) ++
      (if truthy p.srt ∧ ¬ truthy p.«to» then
        ["使用 SRT 文件时必须指定翻译目标语言。"] else []) ++
      (if truthy p.«to» ∧ ¬ truthy p.srt ∧ p.«to» = some p.lang then
        ["源语言和目标语言不能相同。"] else [])

/-- `check_translate_api` (src/core/translate.py lines 43–66) as a function
of the raw API-probe outcome: success passes through; any failure other than
`KeyboardInterrupt` is caught (`HTTPError` / `URLError` / `Exception`) and
re-raised as `RuntimeError("翻译API配置错误或不可用")`. -/
def check_translate_api (raw : Except PyExc Unit) : Except PyExc Unit :=
  match raw with
  | .ok _ => .ok ()
  | .error .keyboardInterrupt => .error .keyboardInterrupt
  | .error _ => .error (.other "翻译API配置错误或不可用")

/-- `prepare_translate_config` (src/core/pipeline.py lines 80–97):
`RuntimeError` from the API check becomes `str(e)`, any other `Exception`
becomes a prefixed message; only `KeyboardInterrupt` escapes. -/
def prepare_translate_config (raw : Except PyExc Unit) : Except PyExc (Option String) :=
  match check_translate_api raw with
  | .ok _ => .ok none
  | .error .keyboardInterrupt => .error .keyboardInterrupt
  | .error (.other m) => .ok (some m)
  | .error (.dependencyError m) => .ok (some ("翻译API配置错误: " ++ m))

/-- The observable outcomes of the effectful calls `run_task` can make, one
field per call site: the API probe inside `prepare_translate_config`,
`embed_subtitle` in pure-embed mode, `translate_srt_file`,
`transcribe_with_vad`, `embed_subtitle` in auto-embed mode,
`os.path.exists(final_srt_path)`, and the two `_rename_if_needed` calls
(whose `os.replace`/`os.makedirs` may raise; on success they return the
final path). -/
structure StageEnv where
  apiProbe : Except PyExc Unit
  embedSub : Except PyExc Unit
  translateFile : Except PyExc (Option String)
  transcribeVad : Except PyExc (Option String)
  autoEmbedSub : Except PyExc Unit
  srtExists : Bool
  renamePure : Except PyExc String
  renameAuto : Except PyExc String

/-- The `try` block of `run_task` (src/core/pipeline.py lines 154–218).
An error value carries the exception together with `result.output_path` as
already assigned when the exception was raised (the handlers keep it).  The
second component is the trace of stages actually entered. -/
def run_task_try (p : TaskParams) (env : StageEnv) :
    Except (PyExc × Option String) TaskResult × List String :=
  if p.embed ∧ truthy p.video ∧ truthy p.srt ∧ ¬ truthy p.«to» then
    match env.embedSub with
    | .error e => (.error (e, none), ["embed_subtitle"])
    | .ok _ =>
      match env.renamePure with
      | .error e => (.error (e, none), ["embed_subtitle"])
      | .ok path => (.ok ⟨true, some path, []⟩, ["embed_subtitle"])
  else
    let stage : Except PyExc (Option String) × List String :=
      if truthy p.srt then (env.translateFile, ["translate_srt_file"])
      else (env.transcribeVad, ["transcribe_with_vad"])
    match stage.1 with
    | .error e => (.error (e, none), stage.2)
    | .ok finalPath =>
      let outPath := if truthy finalPath then finalPath else none
      if p.embed ∧ truthy finalPath ∧ env.srtExists then
        match env.autoEmbedSub with
        | .error e => (.error (e, outPath), stage.2 ++ ["auto_embed"])
        | .ok _ =>
          match env.renameAuto with
          | .error e => (.error (e, outPath), stage.2 ++ ["auto_embed"])
          | .ok path2 => (.ok ⟨true, some path2, []⟩, stage.2 ++ ["auto_embed"])
      else (.ok ⟨true, outPath, []⟩, stage.2)

/-- `run_task` (src/core/pipeline.py lines 117–228): validate; prepare the
translation config when a target language is set and none is configured;
run the `try` block; catch `DependencyError` and `Exception` into
`result.errors`, letting `KeyboardInterrupt` propagate.  Returns the
result (or the propagated exception) together with the trace of stages
entered. -/
def run_task (p : TaskParams) (env : StageEnv) :
    Except PyExc TaskResult × List String :=
  let errs := validate_params p
  if errs ≠ [] then (.ok ⟨false, none, errs⟩, [])
  else
    let prep : Except PyExc (Option String) × List String :=
      if truthy p.«to» ∧ p.translate_config = none
      then (prepare_translate_config env.apiProbe, ["prepare_translate_config"])
      else (.ok none, [])
    match prep.1 with
    | .error e => (.error e, prep.2)
    | .ok errOpt =>
      if truthy errOpt then (.ok ⟨false, none, [errOpt.getD ""]⟩, prep.2)
      else
        let body := run_task_try p env
        match body.1 with
        | .ok r => (.ok r, prep.2 ++ body.2)
        | .error (.keyboardInterrupt, _) =>
            (.error .keyboardInterrupt, prep.2 ++ body.2)
        | .error (.dependencyError m, op) =>
            (.ok ⟨false, op, [m]⟩, prep.2 ++ body.2)
        | .error (.other m, op) =>
            (.ok ⟨false, op, [m]⟩, prep.2 ++ body.2)

/-! ## Properties of the newline split/join primitives -/

theorem splitOnNl_ne_nil (l : Str) : splitOnNl l ≠ [] := by
  induction l with
  | nil => simp [splitOnNl]
  | cons c rest ih =>
    rcases h : splitOnNl rest with _ | ⟨h', t'⟩
    · exact absurd h ih
    · simp only [splitOnNl, h]
      split <;> simp

theorem splitOnNl_cons_eq {rest : Str} {h t} (c : Char) (hs : splitOnNl rest = h :: t) :
    splitOnNl (c :: rest) = if c = '\n' then [] :: h :: t else (c :: h) :: t := by
  simp [splitOnNl, hs]

theorem splitOnNl_append (a b : Str) :
    splitOnNl (a ++ '\n' :: b) = splitOnNl a ++ splitOnNl b := by
  induction a with
  | nil =>
    rcases h : splitOnNl b with _ | ⟨h', t'⟩
    · exact absurd h (splitOnNl_ne_nil b)
    · rw [List.nil_append, splitOnNl_cons_eq '\n' h, if_pos rfl]
      simp [splitOnNl, h]
  | cons c a' ih =>
    rcases h : splitOnNl a' with _ | ⟨h', t'⟩
    · exact absurd h (splitOnNl_ne_nil a')
    · rcases h2 : splitOnNl (a' ++ '\n' :: b) with _ | ⟨h2', t2'⟩
      · exact absurd h2 (splitOnNl_ne_nil _)
      · have heq : h2' = h' ∧ t2' = t' ++ splitOnNl b := by
          have := h2.symm.trans (ih.trans (by rw [h]))
          simpa using this
        obtain ⟨rfl, rfl⟩ := heq
        rw [List.cons_append, splitOnNl_cons_eq c h2, splitOnNl_cons_eq c h]
        split <;> simp

theorem splitOnNl_no_nl {a : Str} (h : '\n' ∉ a) : splitOnNl a = [a] := by
  induction a with
  | nil => simp [splitOnNl]
  | cons c a' ih =>
    simp only [List.mem_cons, not_or] at h
    rw [splitOnNl_cons_eq c (ih h.2), if_neg (Ne.symm h.1)]

theorem splitOnNl_parts_no_nl {l : Str} {x : Str} (hx : x ∈ splitOnNl l) :
    '\n' ∉ x := by
  induction l generalizing x with
  | nil => simp [splitOnNl] at hx; simp [hx]
  | cons c rest ih =>
    rcases h : splitOnNl rest with _ | ⟨h', t'⟩
    · exact absurd h (splitOnNl_ne_nil rest)
    · rw [splitOnNl_cons_eq c h] at hx
      by_cases hc : c = '\n'
      · rw [if_pos hc] at hx
        rcases List.mem_cons.mp hx with rfl | hx
        · simp
        · exact ih (h ▸ hx)
      · rw [if_neg hc] at hx
        rcases List.mem_cons.mp hx with rfl | hx
        · intro hmem
          rcases List.mem_cons.mp hmem with rfl | hmem
          · exact hc rfl
          · exact ih (h ▸ List.mem_cons_self h' t') hmem
        · exact ih (h ▸ List.mem_cons_of_mem h' hx)

/-! ## Properties of the retry loop and batch assembly -/

theorem attempt_loop_success_length {batch t : List Str} {g : Bool}
    {ts : List Attempt} (h : (attempt_loop batch t g ts).2.1 = true) :
    (attempt_loop batch t g ts).1.length = batch.length := by
  induction ts generalizing t g with
  | nil => simp [attempt_loop] at h
  | cons o rest ih =>
    cases o with
    | none => exact ih (by simpa [attempt_loop] using h)
    | some result =>
      by_cases hl : result.length = batch.length
      · simp [attempt_loop, hl]
      · simp only [attempt_loop, if_neg hl] at h ⊢
        exact ih h

theorem attempt_loop_got_true {batch t : List Str} {ts : List Attempt} :
    (attempt_loop batch t true ts).2.2 = true := by
  induction ts generalizing t with
  | nil => simp [attempt_loop]
  | cons o rest ih =>
    cases o with
    | none => simpa [attempt_loop] using ih
    | some result =>
      by_cases hl : result.length = batch.length
      · simp [attempt_loop, hl]
      · simpa [attempt_loop, hl] using ih

theorem attempt_loop_no_result {batch t : List Str} {g : Bool}
    {ts : List Attempt} (h : (attempt_loop batch t g ts).2.2 = false) :
    (attempt_loop batch t g ts).1 = t := by
  induction ts generalizing t g with
  | nil => simp [attempt_loop]
  | cons o rest ih =>
    cases o with
    | none =>
      simp only [attempt_loop] at h ⊢
      exact ih h
    | some result =>
      by_cases hl : result.length = batch.length
      · simp [attempt_loop, hl] at h
      · simp only [attempt_loop, if_neg hl] at h
        exact absurd h (by simp [attempt_loop_got_true])

theorem pad_or_truncate_length (t b : List Str) :
    (pad_or_truncate t b).length = b.length := by
  simp only [pad_or_truncate, List.length_take, List.length_append, List.length_drop]
  omega

theorem translate_single_batch_length (batch : List Str) (ts : List Attempt) :
    (translate_single_batch batch ts).length = batch.length := by
  simp only [translate_single_batch]
  by_cases hs : (attempt_loop batch batch false ts).2.1 = true
  · simpa [hs] using attempt_loop_success_length hs
  · simp only [Bool.not_eq_true] at hs
    by_cases hg : (attempt_loop batch batch false ts).2.2 = true
    · by_cases hl :
        (attempt_loop batch batch false ts).1.length = batch.length
      · simp [hs, hg, hl]
      · simp [hs, hg, hl, pad_or_truncate_length]
    · simp only [Bool.not_eq_true] at hg
      simp [hs, hg]

theorem flat_chunks {α : Type} (B : Nat) :
    ∀ (k : Nat) (l : List α),
      (List.range k).flatMap (fun i => (l.drop (i * B)).take B) = l.take (k * B)
  | 0, l => by simp
  | k + 1, l => by
    rw [List.range_succ_eq_map, List.flatMap_cons, List.flatMap_map]
    have hshift :
        (fun i => ((l.drop ((i + 1) * B)).take B : List α)) =
          fun i => (((l.drop B).drop (i * B)).take B) := by
      funext i
      rw [List.drop_drop]
      ring_nf
    simp only [hshift]
    rw [flat_chunks B k (l.drop B)]
    have : (k + 1) * B = B + k * B := by ring
    rw [this, List.take_add]
    simp

theorem ceil_div_mul_ge {B : Nat} (hB : 0 < B) (n : Nat) :
    n ≤ ((n + B - 1) / B) * B := by
  have hdm := Nat.div_add_mod (n + B - 1) B
  have hlt : (n + B - 1) % B < B := Nat.mod_lt _ hB
  have hcomm : ((n + B - 1) / B) * B = B * ((n + B - 1) / B) := Nat.mul_comm ..
  omega

theorem ceil_div_pos {B n : Nat} (hB : 0 < B) (hn : 0 < n) :
    0 < (n + B - 1) / B := by
  have := ceil_div_mul_ge hB n
  by_contra hc
  simp only [Nat.not_lt, Nat.le_zero] at hc
  rw [hc] at this
  omega

theorem length_flatMap_eq_sum {α β : Type} (l : List α) (f : α → List β) :
    (l.flatMap f).length = (l.map (fun a => (f a).length)).sum := by
  simp [List.length_flatMap, Function.comp_def]

/-- The reassembled translated texts always have exactly one text per input
entry, whatever each batch's outcome was. -/
theorem translatedTexts_length (entries : List Str) (outcome : Nat → BatchOutcome) :
    (translatedTexts entries outcome).length = entries.length := by
  rw [translatedTexts, length_flatMap_eq_sum]
  have hmapeq :
      (List.range (totalBatchCount (entries.map entryText))).map (fun i =>
        (batchResult (entries.map entryText) outcome (i + 1)).length)
      = (List.range (totalBatchCount (entries.map entryText))).map (fun i =>
        (batchSlice (entries.map entryText) (i + 1)).length) := by
    refine List.map_congr_left (fun i _ => ?_)
    rw [batchResult]
    cases outcome (i + 1) with
    | threadError => rfl
    | tries ts => exact translate_single_batch_length ..
  rw [hmapeq, ← length_flatMap_eq_sum]
  have hb : (fun i => batchSlice (entries.map entryText) (i + 1)) =
      fun i => ((entries.map entryText).drop (i * TRANSLATE_BATCH_SIZE)).take
        TRANSLATE_BATCH_SIZE := by
    funext i
    simp [batchSlice]
  rw [hb, flat_chunks, List.take_of_length_le, List.length_map]
  rw [totalBatchCount]
  exact ceil_div_mul_ge (by simp [TRANSLATE_BATCH_SIZE]) _

/-- On non-empty input with a positive worker bound the coordinator returns
normally, with the reassembled, header-repaired entry list. -/
theorem translate_srt_entries_ok {W : Nat} {entries : List Str}
    (outcome : Nat → BatchOutcome) (hW : 0 < W) (hne : entries ≠ []) :
    translate_srt_entries W entries outcome =
      .ok (List.zipWith (fun h t => h ++ '\n' :: t) (entries.map entryHeader)
        (translatedTexts entries outcome)) := by
  have hN : 0 < (entries.map entryText).length := by
    simpa [List.length_pos] using hne
  have htb : 0 < totalBatchCount (entries.map entryText) :=
    ceil_div_pos (by simp [TRANSLATE_BATCH_SIZE]) hN
  rw [translate_srt_entries, if_neg (by simp only [Nat.min_eq_zero_iff]; omega)]

/-- Helper: the output of `translate_srt_entries_ok` has the input's length. -/
theorem translate_srt_entries_ok_length {W : Nat} {entries : List Str}
    (outcome : Nat → BatchOutcome) (hW : 0 < W) (hne : entries ≠ []) :
    ∃ out, translate_srt_entries W entries outcome = .ok out ∧
      out.length = entries.length := by
  refine ⟨_, translate_srt_entries_ok outcome hW hne, ?_⟩
  rw [List.length_zipWith, translatedTexts_length, List.length_map, Nat.min_self]

theorem entryHeader_of_split {e a b : Str} {rest : List Str}
    (h : splitOnNl e = a :: b :: rest) : entryHeader e = a ++ '\n' :: b := by
  cases rest with
  | nil => simp [entryHeader, pySplit2, h, joinNl]
  | cons c r => simp [entryHeader, pySplit2, h, joinNl]

theorem entryHeader_stable {e a b : Str} {rest : List Str}
    (h : splitOnNl e = a :: b :: rest) (t : Str) :
    entryHeader (entryHeader e ++ '\n' :: t) = entryHeader e := by
  have ha : '\n' ∉ a := splitOnNl_parts_no_nl (by rw [h]; exact List.mem_cons_self ..)
  have hb : '\n' ∉ b := splitOnNl_parts_no_nl (by rw [h]; simp)
  have harg : (a ++ '\n' :: b) ++ '\n' :: t = a ++ '\n' :: (b ++ '\n' :: t) := by
    simp
  have hsplit : splitOnNl (a ++ '\n' :: (b ++ '\n' :: t)) =
      a :: b :: splitOnNl t := by
    rw [splitOnNl_append, splitOnNl_append, splitOnNl_no_nl ha, splitOnNl_no_nl hb]
    rfl
  rw [entryHeader_of_split h, harg, entryHeader_of_split hsplit]

/-- Sample well-formed SRT entries reused by the concrete witnesses. -/
def sampleEntry1 : Str := "1\n00:00:00,000 --> 00:00:01,000\nHello".toList

/-- Second sample entry. -/
def sampleEntry2 : Str := "2\n00:00:01,500 --> 00:00:02,000\nWorld".toList

/-- C1: For every non-empty input list of SRT entries (with a positive
configured worker bound) and every pattern of per-batch outcomes —
successful translation, malformed response, repeated exception, even a dead
worker thread — `translate_srt_entries` returns normally and its output
list has exactly the length of the input list. -/
theorem c1_translate_output_length (W : Nat) (entries : List Str)
    (outcome : Nat → BatchOutcome) (hW : 0 < W) (hne : entries ≠ []) :
    ∃ out, translate_srt_entries W entries outcome = .ok out ∧
      out.length = entries.length :=
  translate_srt_entries_ok_length outcome hW hne

theorem c1_translate_output_length_witness :
    ∃ out, translate_srt_entries 4 [sampleEntry1, sampleEntry2]
        (fun _ => .tries [none, some ["Bonjour".toList], none, none, none]) = .ok out ∧
      out.length = [sampleEntry1, sampleEntry2].length :=
  c1_translate_output_length 4 [sampleEntry1, sampleEntry2] _ (by decide) (by simp)

/-- C2: For every non-empty input list of SRT entries, every `i`, and every
pattern of per-batch outcomes, as long as the `i`-th entry has at least two
lines, the `i`-th output entry of `translate_srt_entries` carries the header
(index line plus time-range line) of the `i`-th input entry: batch results
are reassembled by batch index and re-paired with headers by position. -/
theorem c2_output_header_eq_input_header (W : Nat) (entries : List Str)
    (outcome : Nat → BatchOutcome) (i : Nat) (hW : 0 < W)
    (hi : i < entries.length)
    (hwf : 2 ≤ (splitOnNl (entries.get ⟨i, hi⟩)).length) :
    ∃ out, translate_srt_entries W entries outcome = .ok out ∧
      ∃ hio : i < out.length,
        entryHeader (out.get ⟨i, hio⟩) = entryHeader (entries.get ⟨i, hi⟩) := by
  have hne : entries ≠ [] := by
    intro hcon
    rw [hcon] at hi
    simp at hi
  refine ⟨_, translate_srt_entries_ok outcome hW hne, ?_⟩
  have hlen : (List.zipWith (fun h t => h ++ '\n' :: t) (entries.map entryHeader)
      (translatedTexts entries outcome)).length = entries.length := by
    rw [List.length_zipWith, translatedTexts_length, List.length_map, Nat.min_self]
  refine ⟨by rw [hlen]; exact hi, ?_⟩
  obtain ⟨a, b, rest, hsplit⟩ :
      ∃ a b rest, splitOnNl (entries.get ⟨i, hi⟩) = a :: b :: rest := by
    rcases hs : splitOnNl (entries.get ⟨i, hi⟩) with _ | ⟨a, t⟩
    · exact absurd hs (splitOnNl_ne_nil _)
    · rcases t with _ | ⟨b, rest⟩
      · rw [hs] at hwf
        simp at hwf
      · exact ⟨a, b, rest, rfl⟩
  rw [List.get_eq_getElem, List.getElem_zipWith, List.getElem_map]
  have hg : entries[i] = entries.get ⟨i, hi⟩ := by
    rw [List.get_eq_getElem]
  rw [hg]
  exact entryHeader_stable hsplit _

theorem c2_output_header_eq_input_header_witness :
    ∃ out, translate_srt_entries 4 [sampleEntry1, sampleEntry2]
        (fun _ => .threadError) = .ok out ∧
      ∃ hio : 1 < out.length,
        entryHeader (out.get ⟨1, hio⟩) =
          entryHeader ([sampleEntry1, sampleEntry2].get ⟨1, by decide⟩) :=
  c2_output_header_eq_input_header 4 [sampleEntry1, sampleEntry2]
    (fun _ => .threadError) 1 (by decide) (by decide) (by decide)

theorem getLast?_cons_getD {α : Type} (a d : α) (xs : List α) :
    ((a :: xs).getLast?).getD d = (xs.getLast?).getD a := by
  cases xs with
  | nil => rfl
  | cons b ys =>
    rw [List.getLast?_cons_cons]
    rcases hl : (b :: ys).getLast? with _ | x
    · exact absurd hl (by simp)
    · rfl

theorem attempt_loop_all_none {batch t : List Str} {g : Bool} {ts : List Attempt}
    (hall : ∀ o ∈ ts, o = none) :
    attempt_loop batch t g ts = (t, false, g) := by
  induction ts generalizing t g with
  | nil => simp [attempt_loop]
  | cons o rest ih =>
    have ho : o = none := hall o (List.mem_cons_self ..)
    subst ho
    rw [attempt_loop]
    exact ih (fun o ho => hall o (List.mem_cons_of_mem _ ho))

theorem attempt_loop_all_mismatch {batch t : List Str} {g : Bool} {ts : List Attempt}
    (hfail : ∀ o ∈ ts, o ≠ none → (o.getD []).length ≠ batch.length) :
    attempt_loop batch t g ts =
      ((lastSome ts).getD t, false, g || ts.any (fun o => o.isSome)) := by
  induction ts generalizing t g with
  | nil => simp [attempt_loop, lastSome]
  | cons o rest ih =>
    cases o with
    | none =>
      rw [attempt_loop]
      rw [ih (fun o ho hn => hfail o (List.mem_cons_of_mem _ ho) hn)]
      simp [lastSome]
    | some arr =>
      have hm : arr.length ≠ batch.length := by
        have := hfail (some arr) (List.mem_cons_self ..) (by simp)
        simpa using this
      rw [attempt_loop]
      simp only [if_neg hm]
      rw [ih (fun o ho hn => hfail o (List.mem_cons_of_mem _ ho) hn)]
      refine Prod.ext ?_ (Prod.ext rfl ?_)
      · show (lastSome rest).getD arr = (lastSome (some arr :: rest)).getD t
        rw [lastSome, lastSome, List.filterMap_cons]
        simp only [id]
        rw [getLast?_cons_getD]
      · show (true || rest.any fun o => o.isSome) =
          (g || (some arr :: rest).any fun o => o.isSome)
        simp

theorem pad_or_truncate_eq (t b : List Str) :
    pad_or_truncate t b = t.take b.length ++ b.drop t.length := by
  rw [pad_or_truncate, List.take_append_eq_append_take]
  congr 1
  exact List.take_of_length_le (by rw [List.length_drop])

theorem lastSome_none_iff {ts : List Attempt} :
    lastSome ts = none ↔ ts.any (fun o => o.isSome) = false := by
  rw [lastSome, List.getLast?_eq_none_iff]
  constructor
  · intro h
    rw [List.any_eq_false]
    intro o ho
    cases o with
    | none => simp
    | some arr =>
      have : arr ∈ ts.filterMap id := List.mem_filterMap.mpr ⟨some arr, ho, rfl⟩
      rw [h] at this
      simp at this
  · intro h
    rw [List.any_eq_false] at h
    rcases hl : ts.filterMap id with _ | ⟨x, xs⟩
    · rfl
    · have : x ∈ ts.filterMap id := by rw [hl]; exact List.mem_cons_self ..
      obtain ⟨o, ho, hoe⟩ := List.mem_filterMap.mp this
      cases o with
      | none => simp [id] at hoe
      | some arr => simpa using h _ ho

/-- A batch and a pattern of five parseable-but-wrong-length responses used
to refute the universal identity-fallback reading. -/
def cexBatch : List Str := ["a".toList, "b".toList]

/-- Five attempts, each returning the parseable one-element array `["x"]`
(length 1 ≠ 2). -/
def cexTries : List Attempt := List.replicate 5 (some ["x".toList])

/-- C3 (counterexample): a batch of two texts for which every one of the
`TRANSLATE_MAX_RETRIES` attempts returns a parseable array of the wrong
length does NOT fall back to its original input verbatim: the padded last
response `["x", "b"]` is returned instead of `["a", "b"]`. -/
theorem c3_counterexample_malformed_not_identity :
    (∀ o ∈ cexTries, o ≠ none ∧ (o.getD []).length ≠ cexBatch.length) ∧
    cexTries.length = TRANSLATE_MAX_RETRIES ∧
    translate_single_batch cexBatch cexTries = ["x".toList, "b".toList] ∧
    translate_single_batch cexBatch cexTries ≠ cexBatch := by decide

/-- C3 (amended): if no attempt ever yields a parseable array — every
attempt raises — then after the `TRANSLATE_MAX_RETRIES` attempts the
batch's output equals its original input texts verbatim (the identity
fallback of src/core/translate.py lines 355–357). -/
theorem c3_amended_identity_fallback (batch : List Str) (tries : List Attempt)
    (hlen : tries.length = TRANSLATE_MAX_RETRIES)
    (hall : ∀ o ∈ tries, o = none) :
    translate_single_batch batch tries = batch := by
  simp only [translate_single_batch]
  rw [attempt_loop_all_none hall]
  simp

theorem c3_amended_identity_fallback_witness :
    translate_single_batch ["Hello".toList] (List.replicate 5 none) =
      ["Hello".toList] :=
  c3_amended_identity_fallback _ _ (by decide) (by decide)

/-- C7: when a batch's retries are exhausted without success (every parsed
response has the wrong length), the output is the last parsed array padded
at the tail with the original texts and truncated to the batch length; if
no response ever parsed, the output is exactly the original texts. -/
theorem c7_exhaustion_pads_or_keeps_original (batch : List Str)
    (tries : List Attempt) (hlen : tries.length = TRANSLATE_MAX_RETRIES)
    (hfail : ∀ o ∈ tries, o ≠ none → (o.getD []).length ≠ batch.length) :
    translate_single_batch batch tries =
      match lastSome tries with
      | some arr => arr.take batch.length ++ batch.drop arr.length
      | none => batch := by
  simp only [translate_single_batch]
  rw [attempt_loop_all_mismatch hfail]
  cases hl : lastSome tries with
  | none =>
    have hany : tries.any (fun o => o.isSome) = false := lastSome_none_iff.mp hl
    simp [hl, hany]
  | some arr =>
    have hany : tries.any (fun o => o.isSome) = true := by
      by_contra hc
      simp only [Bool.not_eq_true] at hc
      rw [lastSome_none_iff.mpr hc] at hl
      exact Option.noConfusion hl
    have hmem : some arr ∈ tries := by
      have harr : arr ∈ tries.filterMap id := by
        rw [lastSome] at hl
        exact List.mem_of_mem_getLast? hl
      obtain ⟨o, ho, hoe⟩ := List.mem_filterMap.mp harr
      cases o with
      | none => simp [id] at hoe
      | some x =>
        obtain rfl : x = arr := by simpa using hoe
        exact ho
    have hm : arr.length ≠ batch.length := by
      have := hfail (some arr) hmem (by simp)
      simpa using this
    simp only [hl, hany, Option.getD_some, Bool.or_true, ne_eq, hm,
      not_false_eq_true, and_true, if_true, Bool.true_eq_false, if_false]
    exact pad_or_truncate_eq ..

/-- Batch of three texts for the C7 witness. -/
def c7Batch : List Str := ["a".toList, "b".toList, "c".toList]

/-- Attempts: two raises, a too-short array, a too-long array, a raise;
the last parsed array has length 4 ≠ 3. -/
def c7Tries : List Attempt :=
  [none, some ["x".toList], none,
    some ["p".toList, "q".toList, "r".toList, "s".toList], none]

theorem c7_exhaustion_pads_or_keeps_original_witness :
    translate_single_batch c7Batch c7Tries =
      ["p".toList, "q".toList, "r".toList] := by
  have h := c7_exhaustion_pads_or_keeps_original c7Batch c7Tries
    (by decide) (by decide)
  rw [h]
  decide

/-- C4: invoked with zero cues (an empty entry list), the coordinator does
not return an empty list: `total_batches = 0`, so `workers = min W 0 = 0`
and `ThreadPoolExecutor(max_workers=0)` raises `ValueError` before any
network call, for every configured worker bound and batch outcome. -/
theorem c4_zero_cues_raises_value_error (W : Nat) (outcome : Nat → BatchOutcome) :
    translate_srt_entries W [] outcome =
      .error ("max_workers must be greater than 0".toList) := by
  rw [translate_srt_entries]
  simp [totalBatchCount, TRANSLATE_BATCH_SIZE]

/-! ## Clipping and index invariants of segment transcription -/

theorem whisper_fold_bounds (start_sec end_sec : ℚ) (subs : List WhisperSub)
    (acc : List Cue × Nat)
    (hacc : ∀ c ∈ acc.1, start_sec ≤ c.startSec ∧ c.startSec < c.endSec ∧
      c.endSec ≤ end_sec) :
    ∀ c ∈ (subs.foldl (whisper_sub_step start_sec (end_sec - start_sec)) acc).1,
      start_sec ≤ c.startSec ∧ c.startSec < c.endSec ∧ c.endSec ≤ end_sec := by
  induction subs generalizing acc with
  | nil => simpa using hacc
  | cons sub rest ih =>
    rw [List.foldl_cons]
    refine ih _ ?_
    intro c hc
    simp only [whisper_sub_step] at hc
    by_cases ht : pyStrip sub.text = []
    · rw [if_pos ht] at hc
      exact hacc c hc
    · rw [if_neg ht] at hc
      by_cases hge : max 0 sub.startT ≥ min sub.endT (end_sec - start_sec)
      · rw [if_pos hge] at hc
        exact hacc c hc
      · rw [if_neg hge] at hc
        rcases List.mem_append.mp hc with hc | hc
        · exact hacc c hc
        · have hceq : c = ⟨acc.2, start_sec + max 0 sub.startT,
              start_sec + min sub.endT (end_sec - start_sec), pyStrip sub.text⟩ := by
            simpa using hc
          subst hceq
          have h1 : (0 : ℚ) ≤ max 0 sub.startT := le_max_left 0 _
          have h2 : min sub.endT (end_sec - start_sec) ≤ end_sec - start_sec :=
            min_le_right _ _
          have h3 : max 0 sub.startT < min sub.endT (end_sec - start_sec) :=
            lt_of_not_ge hge
          refine ⟨by simpa using h1, by simpa using h3, by simp; linarith⟩

/-- C5: every cue produced from a speech segment's transcription sub-results
satisfies `segment.start ≤ cue.startSec < cue.endSec ≤ segment.end` in
absolute seconds: relative timestamps are clipped to `[0, chunk_duration]`
and sub-results with an empty clipped interval or empty trimmed text produce
no cue. -/
theorem c5_cue_within_segment_bounds (tr : List ℚ → List WhisperSub)
    (wav : List ℚ) (seg : SpeechSegment) (counter : Nat) (cue : Cue)
    (hseg : seg.startSample < seg.endSample)
    (hmem : cue ∈ (transcribe_segment tr wav seg counter).1) :
    (seg.startSample : ℚ) / (SAMPLE_RATE : ℚ) ≤ cue.startSec ∧
    cue.startSec < cue.endSec ∧
    cue.endSec ≤ (seg.endSample : ℚ) / (SAMPLE_RATE : ℚ) := by
  simp only [transcribe_segment] at hmem
  by_cases hsil : maxAbs ((wav.drop seg.startSample).take
      (seg.endSample - seg.startSample)) < SILENCE_EPS
  · rw [if_pos hsil] at hmem
    simp at hmem
  · rw [if_neg hsil] at hmem
    exact whisper_fold_bounds ((seg.startSample : ℚ) / (SAMPLE_RATE : ℚ))
      ((seg.endSample : ℚ) / (SAMPLE_RATE : ℚ)) _ ([], counter) (by simp)
      cue hmem

/-- The segment used by the C5 witness: samples 0–16000 (one second). -/
def c5Seg : SpeechSegment := ⟨0, 16000⟩

/-- A transcription collaborator answering one sub-result 0s–0.5s "Hi". -/
def c5Tr : List ℚ → List WhisperSub := fun _ => [⟨0, 1/2, "Hi".toList⟩]

/-- The cue the C5 witness produces. -/
def c5Cue : Cue := ⟨1, 0, 1/2, "Hi".toList⟩

theorem c5_cue_within_segment_bounds_witness :
    (c5Seg.startSample : ℚ) / (SAMPLE_RATE : ℚ) ≤ c5Cue.startSec ∧
    c5Cue.startSec < c5Cue.endSec ∧
    c5Cue.endSec ≤ (c5Seg.endSample : ℚ) / (SAMPLE_RATE : ℚ) :=
  c5_cue_within_segment_bounds c5Tr [1] c5Seg 1 c5Cue (by decide)
    (by
      simp only [transcribe_segment, c5Tr, c5Seg, c5Cue, whisper_sub_step,
        maxAbs, SILENCE_EPS, SAMPLE_RATE, pyStrip, isWsChar, List.foldl,
        List.drop, List.take]
      norm_num [Char.isWhitespace]
      rw [if_neg (by decide)]
      simp only [List.mem_singleton]
      refine Cue.mk.injEq .. ▸ ?_
      exact ⟨rfl, rfl, rfl, by decide⟩)

theorem whisper_sub_step_index (start_sec dur : ℚ) (acc : List Cue × Nat)
    (sub : WhisperSub) (c0 : Nat)
    (h1 : acc.1.map Cue.index = List.range' c0 acc.1.length)
    (h2 : acc.2 = c0 + acc.1.length) :
    (whisper_sub_step start_sec dur acc sub).1.map Cue.index =
      List.range' c0 (whisper_sub_step start_sec dur acc sub).1.length ∧
    (whisper_sub_step start_sec dur acc sub).2 =
      c0 + (whisper_sub_step start_sec dur acc sub).1.length := by
  simp only [whisper_sub_step]
  by_cases ht : pyStrip sub.text = []
  · rw [if_pos ht]
    exact ⟨h1, h2⟩
  · rw [if_neg ht]
    by_cases hge : max 0 sub.startT ≥ min sub.endT dur
    · rw [if_pos hge]
      exact ⟨h1, h2⟩
    · rw [if_neg hge]
      constructor
      · simp only [List.map_append, List.length_append, List.map_cons,
          List.map_nil, List.length_cons, List.length_nil]
        rw [List.range'_1_concat, h1, h2]
      · simp only [List.length_append, List.length_cons, List.length_nil]
        omega

theorem whisper_fold_index (start_sec dur : ℚ) (subs : List WhisperSub)
    (acc : List Cue × Nat) (c0 : Nat)
    (h1 : acc.1.map Cue.index = List.range' c0 acc.1.length)
    (h2 : acc.2 = c0 + acc.1.length) :
    (subs.foldl (whisper_sub_step start_sec dur) acc).1.map Cue.index =
      List.range' c0 (subs.foldl (whisper_sub_step start_sec dur) acc).1.length ∧
    (subs.foldl (whisper_sub_step start_sec dur) acc).2 =
      c0 + (subs.foldl (whisper_sub_step start_sec dur) acc).1.length := by
  induction subs generalizing acc with
  | nil => exact ⟨h1, h2⟩
  | cons sub rest ih =>
    rw [List.foldl_cons]
    obtain ⟨g1, g2⟩ := whisper_sub_step_index start_sec dur acc sub c0 h1 h2
    exact ih _ g1 g2

theorem transcribe_segment_index (tr : List ℚ → List WhisperSub) (wav : List ℚ)
    (seg : SpeechSegment) (counter : Nat) :
    (transcribe_segment tr wav seg counter).1.map Cue.index =
      List.range' counter (transcribe_segment tr wav seg counter).1.length ∧
    (transcribe_segment tr wav seg counter).2 =
      counter + (transcribe_segment tr wav seg counter).1.length := by
  simp only [transcribe_segment]
  by_cases hsil : maxAbs ((wav.drop seg.startSample).take
      (seg.endSample - seg.startSample)) < SILENCE_EPS
  · rw [if_pos hsil]
    simp
  · rw [if_neg hsil]
    exact whisper_fold_index _ _ _ ([], counter) counter (by simp) (by simp)

theorem segments_fold_index (tr : List ℚ → List WhisperSub) (wav : List ℚ)
    (segments : List SpeechSegment) (acc : List Cue × Nat) (c0 : Nat)
    (h1 : acc.1.map Cue.index = List.range' c0 acc.1.length)
    (h2 : acc.2 = c0 + acc.1.length) :
    (segments.foldl (segment_fold_step tr wav) acc).1.map Cue.index =
      List.range' c0 (segments.foldl (segment_fold_step tr wav) acc).1.length ∧
    (segments.foldl (segment_fold_step tr wav) acc).2 =
      c0 + (segments.foldl (segment_fold_step tr wav) acc).1.length := by
  induction segments generalizing acc c0 with
  | nil => exact ⟨h1, h2⟩
  | cons seg rest ih =>
    rw [List.foldl_cons]
    obtain ⟨s1, s2⟩ := transcribe_segment_index tr wav seg acc.2
    refine ih _ c0 ?_ ?_
    · simp only [segment_fold_step, List.map_append, List.length_append]
      rw [h1, s1, h2]
      have := List.range'_append c0 acc.1.length
        (transcribe_segment tr wav seg acc.2).1.length 1
      simpa [Nat.add_comm] using this
    · simp only [segment_fold_step, List.length_append]
      rw [s2, h2]
      omega

/-- C8: in the cue list assembled by `_transcribe_segments`, the index of
the i-th produced cue is exactly i+1 — indices run 1, 2, 3, … consecutively
with no gaps — even when near-silent segments are skipped and empty or
out-of-bounds sub-results are discarded. -/
theorem c8_cue_indices_consecutive_from_one (tr : List ℚ → List WhisperSub)
    (wav : List ℚ) (segments : List SpeechSegment) :
    (transcribe_segments tr wav segments).map Cue.index =
      List.range' 1 (transcribe_segments tr wav segments).length := by
  have := segments_fold_index tr wav segments ([], 1) 1 (by simp) (by simp)
  simpa [transcribe_segments] using this.1

/-! ## Round trip of the subtitle writer and reader -/

theorem hasNlNl_cons_elim {c1 c2 : Char} {rest : Str}
    (h : hasNlNl (c1 :: c2 :: rest) = false) :
    ¬ (c1 = '\n' ∧ c2 = '\n') ∧ hasNlNl (c2 :: rest) = false := by
  simp only [hasNlNl, Bool.or_eq_false_iff, Bool.and_eq_false_iff] at h
  refine ⟨?_, h.2⟩
  intro ⟨hc1, hc2⟩
  rcases h.1 with h1 | h2
  · simp [hc1] at h1
  · simp [hc2] at h2

theorem splitOnNlNl_no_blank {e : Str} (h : hasNlNl e = false) :
    splitOnNlNl e = [e] := by
  induction e with
  | nil => simp [splitOnNlNl]
  | cons c tail ih =>
    cases tail with
    | nil => simp [splitOnNlNl]
    | cons c2 t' =>
      obtain ⟨hcond, htail⟩ := hasNlNl_cons_elim h
      simp only [splitOnNlNl, if_neg hcond]
      rw [ih htail]

theorem splitOnNlNl_cons2 (c1 c2 : Char) (rest : Str) :
    splitOnNlNl (c1 :: c2 :: rest) =
      if c1 = '\n' ∧ c2 = '\n' then [] :: splitOnNlNl rest
      else
        match splitOnNlNl (c2 :: rest) with
        | [] => [[c1]]
        | h :: t => (c1 :: h) :: t := rfl

theorem splitOnNlNl_append {e : Str} (he : hasNlNl e = false)
    (hlast : e.getLast? ≠ some '\n') (s : Str) :
    splitOnNlNl (e ++ '\n' :: '\n' :: s) = e :: splitOnNlNl s := by
  induction e with
  | nil =>
    rw [List.nil_append, splitOnNlNl_cons2, if_pos ⟨rfl, rfl⟩]
  | cons c tail ih =>
    cases tail with
    | nil =>
      have hc : c ≠ '\n' := by simpa using hlast
      rw [List.cons_append, List.nil_append, splitOnNlNl_cons2,
        if_neg (by simp [hc]), splitOnNlNl_cons2, if_pos ⟨rfl, rfl⟩]
    | cons c2 t' =>
      obtain ⟨hcond, htail⟩ := hasNlNl_cons_elim he
      have hlast2 : (c2 :: t').getLast? ≠ some '\n' := by
        rwa [List.getLast?_cons_cons] at hlast
      have ihh := ih htail hlast2
      simp only [List.cons_append] at ihh ⊢
      rw [splitOnNlNl_cons2, if_neg hcond, ihh]

theorem splitOnNlNl_joinSep {es : List Str} (hne : es ≠ [])
    (hall : ∀ e ∈ es, hasNlNl e = false ∧ e.getLast? ≠ some '\n') :
    splitOnNlNl (joinSepNlNl es) = es := by
  induction es with
  | nil => exact absurd rfl hne
  | cons e rest ih =>
    cases rest with
    | nil =>
      simp only [joinSepNlNl]
      exact splitOnNlNl_no_blank (hall e (List.mem_cons_self ..)).1
    | cons e2 rest' =>
      have hjoin : joinSepNlNl (e :: e2 :: rest') =
          e ++ '\n' :: '\n' :: joinSepNlNl (e2 :: rest') := rfl
      rw [hjoin,
        splitOnNlNl_append (hall e (List.mem_cons_self ..)).1
          (hall e (List.mem_cons_self ..)).2,
        ih (by simp) (fun x hx => hall x (List.mem_cons_of_mem _ hx))]

theorem dropWhile_head_false {α : Type} {p : α → Bool} {l : List α}
    (h : ∀ c, l.head? = some c → p c = false) : l.dropWhile p = l := by
  cases l with
  | nil => rfl
  | cons a t => simp [List.dropWhile, h a rfl]

theorem dropWhile_eq_self_head {α : Type} {p : α → Bool} {l : List α}
    (h : l.dropWhile p = l) {c : α} (hc : l.head? = some c) : p c = false := by
  cases l with
  | nil => simp at hc
  | cons a t =>
    obtain rfl : a = c := by simpa using hc
    by_contra hw
    simp only [Bool.not_eq_false] at hw
    simp only [List.dropWhile, hw] at h
    have hlen := congrArg List.length h
    have hle : (t.dropWhile p).length ≤ t.length := (List.dropWhile_sublist _).length_le
    simp at hlen
    omega

theorem dropWhile_eq_self_of_length {α : Type} {p : α → Bool} {l : List α}
    (h : (l.dropWhile p).length = l.length) : l.dropWhile p = l := by
  cases l with
  | nil => rfl
  | cons a t =>
    by_cases hp : p a = true
    · exfalso
      simp only [List.dropWhile, hp] at h
      have hle : (t.dropWhile p).length ≤ t.length := (List.dropWhile_sublist _).length_le
      simp at h
      omega
    · simp only [Bool.not_eq_true] at hp
      simp [List.dropWhile, hp]

theorem pyStrip_eq_self_parts {e : Str} (h : pyStrip e = e) :
    e.dropWhile isWsChar = e ∧ e.reverse.dropWhile isWsChar = e.reverse := by
  have hlen : (pyStrip e).length = e.length := by rw [h]
  have l1 : (e.dropWhile isWsChar).length ≤ e.length :=
    (List.dropWhile_sublist _).length_le
  have l2 : ((e.dropWhile isWsChar).reverse.dropWhile isWsChar).length ≤
      (e.dropWhile isWsChar).length := by
    have := (List.dropWhile_sublist (l := (e.dropWhile isWsChar).reverse)
      (p := isWsChar)).length_le
    simpa using this
  have hps : (pyStrip e).length =
      ((e.dropWhile isWsChar).reverse.dropWhile isWsChar).length := by
    simp [pyStrip]
  have e1 : (e.dropWhile isWsChar).length = e.length := by omega
  have he1 : e.dropWhile isWsChar = e := dropWhile_eq_self_of_length e1
  have e2 : (e.reverse.dropWhile isWsChar).length = e.reverse.length := by
    have hrw : pyStrip e = (e.reverse.dropWhile isWsChar).reverse := by
      rw [pyStrip, he1]
    rw [hrw] at hlen
    simpa using hlen
  exact ⟨he1, dropWhile_eq_self_of_length e2⟩

theorem stripInv_head {e : Str} (h : pyStrip e = e) {c : Char}
    (hc : e.head? = some c) : isWsChar c = false :=
  dropWhile_eq_self_head (pyStrip_eq_self_parts h).1 hc

theorem stripInv_last {e : Str} (h : pyStrip e = e) {c : Char}
    (hc : e.getLast? = some c) : isWsChar c = false :=
  dropWhile_eq_self_head (pyStrip_eq_self_parts h).2
    (by rw [List.head?_reverse]; exact hc)

theorem joinSep_ne_nil {e : Str} {rest : List Str} (hne : e ≠ []) :
    joinSepNlNl (e :: rest) ≠ [] := by
  cases rest with
  | nil => exact hne
  | cons e2 r =>
    show e ++ '\n' :: '\n' :: joinSepNlNl (e2 :: r) ≠ []
    simp

theorem joinSep_head {e : Str} (rest : List Str) (hne : e ≠ []) :
    (joinSepNlNl (e :: rest)).head? = e.head? := by
  cases rest with
  | nil => rfl
  | cons e2 r =>
    show (e ++ '\n' :: '\n' :: joinSepNlNl (e2 :: r)).head? = e.head?
    exact List.head?_append_of_ne_nil _ hne

theorem joinSep_getLast {es : List Str} {elast : Str}
    (hlast : es.getLast? = some elast) (hall : ∀ e ∈ es, e ≠ []) :
    (joinSepNlNl es).getLast? = elast.getLast? := by
  induction es with
  | nil => simp at hlast
  | cons e rest ih =>
    cases rest with
    | nil =>
      obtain rfl : e = elast := by simpa using hlast
      rfl
    | cons e2 r =>
      rw [List.getLast?_cons_cons] at hlast
      have hJne : joinSepNlNl (e2 :: r) ≠ [] :=
        joinSep_ne_nil (hall e2 (by simp))
      have hj : joinSepNlNl (e :: e2 :: r) =
          (e ++ ['\n', '\n']) ++ joinSepNlNl (e2 :: r) := by
        show e ++ '\n' :: '\n' :: joinSepNlNl (e2 :: r) = _
        simp
      rw [hj, List.getLast?_append_of_ne_nil _ hJne]
      exact ih hlast (fun x hx => hall x (List.mem_cons_of_mem _ hx))

theorem pyStrip_save {es : List Str} (hne : es ≠ [])
    (hall : ∀ e ∈ es, e ≠ [] ∧ pyStrip e = e) :
    pyStrip (joinSepNlNl es ++ ['\n']) = joinSepNlNl es := by
  obtain ⟨e1, rest, rfl⟩ : ∃ e1 rest, es = e1 :: rest := by
    cases es with
    | nil => exact absurd rfl hne
    | cons a t => exact ⟨a, t, rfl⟩
  have he1 := hall e1 (List.mem_cons_self ..)
  have hJne : joinSepNlNl (e1 :: rest) ≠ [] := joinSep_ne_nil he1.1
  obtain ⟨elast, hel⟩ : ∃ elast, (e1 :: rest).getLast? = some elast := by
    rcases hgl : (e1 :: rest).getLast? with _ | x
    · exact absurd hgl (by simp)
    · exact ⟨x, rfl⟩
  have helmem : elast ∈ e1 :: rest := List.mem_of_mem_getLast? hel
  have hlastmem := hall elast helmem
  rw [pyStrip]
  have h1 : ((joinSepNlNl (e1 :: rest)) ++ ['\n']).dropWhile isWsChar =
      (joinSepNlNl (e1 :: rest)) ++ ['\n'] := by
    apply dropWhile_head_false
    intro c hc
    rw [List.head?_append_of_ne_nil _ hJne, joinSep_head rest he1.1] at hc
    exact stripInv_head he1.2 hc
  rw [h1, List.reverse_append]
  have hrev : (['\n'] : Str).reverse ++ (joinSepNlNl (e1 :: rest)).reverse =
      '\n' :: (joinSepNlNl (e1 :: rest)).reverse := by simp
  rw [hrev]
  have hnl : isWsChar '\n' = true := by decide
  have h2 : ('\n' :: (joinSepNlNl (e1 :: rest)).reverse).dropWhile isWsChar =
      ((joinSepNlNl (e1 :: rest)).reverse).dropWhile isWsChar := by
    simp [List.dropWhile, hnl]
  rw [h2]
  have h3 : ((joinSepNlNl (e1 :: rest)).reverse).dropWhile isWsChar =
      (joinSepNlNl (e1 :: rest)).reverse := by
    apply dropWhile_head_false
    intro c hc
    rw [List.head?_reverse, joinSep_getLast hel (fun x hx => (hall x hx).1)] at hc
    exact stripInv_last hlastmem.2 hc
  rw [h3, List.reverse_reverse]

/-- C6: for any well-formed cue list — non-empty entries without
surrounding whitespace or internal blank lines — writing it with
`_save_srt` and parsing the written content back with `_parse_srt_file`
yields the identical cue list. -/
theorem c6_parse_save_roundtrip (es : List Str) (h : wellFormedSrt es) :
    parse_srt_file (save_srt es) = some es := by
  obtain ⟨hne, hall⟩ := h
  have hall' : ∀ e ∈ es, e ≠ [] ∧ pyStrip e = e :=
    fun e he => ⟨(hall e he).1, (hall e he).2.1⟩
  have hstrip : pyStrip (save_srt es) = joinSepNlNl es := pyStrip_save hne hall'
  have hJne : joinSepNlNl es ≠ [] := by
    cases es with
    | nil => exact absurd rfl hne
    | cons a t => exact joinSep_ne_nil (hall' a (List.mem_cons_self ..)).1
  have hsplit : splitOnNlNl (joinSepNlNl es) = es := by
    apply splitOnNlNl_joinSep hne
    intro e he
    refine ⟨(hall e he).2.2, fun hcon => ?_⟩
    have := stripInv_last (hall e he).2.1 hcon
    exact absurd this (by decide)
  have hmap : es.map pyStrip = es := by
    rw [show es.map pyStrip = es.map id from
      List.map_congr_left (fun e he => (hall e he).2.1), List.map_id]
  have hfilter : es.filter (fun e => e ≠ []) = es :=
    List.filter_eq_self.mpr (fun e he => by simpa using (hall e he).1)
  simp only [parse_srt_file]
  rw [hstrip, if_neg hJne, hsplit, hmap, hfilter, if_neg hne]

theorem c6_parse_save_roundtrip_witness :
    parse_srt_file (save_srt [sampleEntry1, sampleEntry2]) =
      some [sampleEntry1, sampleEntry2] :=
  c6_parse_save_roundtrip [sampleEntry1, sampleEntry2]
    (by constructor
        · simp
        · intro e he
          simp only [List.mem_cons, List.mem_singleton] at he
          rcases he with rfl | rfl | he
          · exact ⟨by decide, by decide, by decide⟩
          · exact ⟨by decide, by decide, by decide⟩
          · simp at he)

/-! ## Parameter validation and the task pipeline -/

/-- A subtitle-translation parameter set whose target equals the source
language: `srt="a.srt"`, `to="en"`, `lang="en"`. -/
def c9Params : TaskParams := { srt := some "a.srt", «to» := some "en", lang := "en" }

/-- C9 (counterexample): a parameter set with a translation target given
and equal to the source language that `validate_params` accepts (returns no
error): the identical-language check is guarded by `not params.srt`, so an
SRT input with `to == lang` passes validation. -/
theorem c9_counterexample_same_lang_accepted :
    truthy c9Params.«to» = true ∧ c9Params.«to» = some c9Params.lang ∧
    validate_params c9Params = [] := by decide

/-- C9 (amended): for every task parameter set in which a translation target
language is given, no subtitle input is present, and the target equals the
source language, parameter validation rejects the task — `validate_params`
returns a non-empty error list. -/
theorem c9_same_lang_rejected_without_srt (p : TaskParams)
    (hto : truthy p.«to» = true) (heq : p.«to» = some p.lang)
    (hsrt : truthy p.srt = false) :
    validate_params p ≠ [] := by
  simp only [validate_params]
  rw [if_neg (by simp [hsrt])]
  by_cases hic : ([p.audio, p.video, p.srt].filter (fun x => truthy x)).length = 0
  · rw [if_pos hic]
    simp
  · rw [if_neg hic]
    have he4 : (if truthy p.«to» ∧ ¬ truthy p.srt ∧ p.«to» = some p.lang then
        (["源语言和目标语言不能相同。"] : List String) else []) =
        ["源语言和目标语言不能相同。"] := by
      rw [if_pos ⟨by simp [hto], by simp [hsrt], heq⟩]
    rw [he4]
    simp

theorem c9_same_lang_rejected_without_srt_witness :
    validate_params { audio := some "a.mp3", lang := "en", «to» := some "en" } ≠ [] :=
  c9_same_lang_rejected_without_srt
    { audio := some "a.mp3", lang := "en", «to» := some "en" }
    (by decide) (by decide) (by decide)

theorem run_task_try_ok_success (p : TaskParams) (env : StageEnv) {r : TaskResult}
    (h : (run_task_try p env).1 = .ok r) : r.success = true := by
  simp only [run_task_try] at h
  split at h
  · split at h
    · simp at h
    · split at h
      · simp at h
      · simp only [Except.ok.injEq] at h
        rw [← h]
  · split at h
    · simp at h
    · split at h
      · split at h
        · simp at h
        · split at h
          · simp at h
          · simp only [Except.ok.injEq] at h
            rw [← h]
      · simp only [Except.ok.injEq] at h
        rw [← h]

/-- C10: for every task parameter set and every pattern of stage outcomes,
`run_task` returns a `TaskResult` unless a `KeyboardInterrupt` propagates,
and a failed result always carries a non-empty error list; a validation
failure returns its error list before any stage runs (empty stage trace);
a failed API-config preparation yields `success = false` with the
`RuntimeError` message as the sole error; and a caught internal exception
(`DependencyError` or any other `Exception`) in the `try` block yields
`success = false` with `str(e)` as the sole error, keeping the
`output_path` assigned so far. -/
theorem c10_run_task_returns_result_or_interrupt (p : TaskParams) (env : StageEnv) :
    ((run_task p env).1 = .error PyExc.keyboardInterrupt ∨
      ∃ r, (run_task p env).1 = .ok r ∧ (r.success = false → r.errors ≠ [])) ∧
    (validate_params p ≠ [] →
      run_task p env = (.ok ⟨false, none, validate_params p⟩, [])) ∧
    (∀ e, validate_params p = [] → (truthy p.«to» ∧ p.translate_config = none) →
      env.apiProbe = .error e → e ≠ .keyboardInterrupt →
      (run_task p env).1 = .ok ⟨false, none, ["翻译API配置错误或不可用"]⟩) ∧
    (∀ m op, validate_params p = [] →
      ((truthy p.«to» ∧ p.translate_config = none) → env.apiProbe = .ok ()) →
      ((run_task_try p env).1 = .error (.dependencyError m, op) ∨
        (run_task_try p env).1 = .error (.other m, op)) →
      (run_task p env).1 = .ok ⟨false, op, [m]⟩) := by
  refine ⟨?_, ?_, ?_, ?_⟩
  · simp only [run_task]
    by_cases hval : validate_params p ≠ []
    · rw [if_pos hval]
      exact Or.inr ⟨_, rfl, fun _ => hval⟩
    · rw [if_neg hval]
      by_cases hprep : truthy p.«to» = true ∧ p.translate_config = none
      · rw [if_pos hprep]
        cases hapi : env.apiProbe with
        | error e =>
          cases e with
          | keyboardInterrupt => exact Or.inl rfl
          | dependencyError m =>
            exact Or.inr ⟨_, rfl, fun _ => by simp⟩
          | other m =>
            exact Or.inr ⟨_, rfl, fun _ => by simp⟩
        | ok u =>
          rcases hb : (run_task_try p env).1 with ⟨e, op⟩ | r
          · cases e with
            | keyboardInterrupt => exact Or.inl rfl
            | dependencyError m => exact Or.inr ⟨_, rfl, fun _ => by simp⟩
            | other m => exact Or.inr ⟨_, rfl, fun _ => by simp⟩
          · exact Or.inr ⟨r, rfl, fun hf =>
              absurd (run_task_try_ok_success p env hb) (by simp [hf])⟩
      · rw [if_neg hprep]
        rcases hb : (run_task_try p env).1 with ⟨e, op⟩ | r
        · cases e with
          | keyboardInterrupt => exact Or.inl rfl
          | dependencyError m => exact Or.inr ⟨_, rfl, fun _ => by simp⟩
          | other m => exact Or.inr ⟨_, rfl, fun _ => by simp⟩
        · exact Or.inr ⟨r, rfl, fun hf =>
            absurd (run_task_try_ok_success p env hb) (by simp [hf])⟩
  · intro hval
    simp only [run_task]
    rw [if_pos hval]
  · intro e hval hneed hapi hek
    simp only [run_task]
    rw [if_neg (by simp [hval]), if_pos hneed, hapi]
    cases e with
    | keyboardInterrupt => exact absurd rfl hek
    | dependencyError m => rfl
    | other m => rfl
  · intro m op hval hprep hexc
    simp only [run_task]
    rw [if_neg (by simp [hval])]
    by_cases hneed : truthy p.«to» = true ∧ p.translate_config = none
    · rw [if_pos hneed, hprep hneed]
      rcases hexc with hb | hb <;> rw [hb] <;> rfl
    · rw [if_neg hneed]
      rcases hexc with hb | hb <;> rw [hb] <;> rfl

/-- A fully-successful stage environment for the C10 witness. -/
def c10Env : StageEnv :=
  { apiProbe := .ok ()
    embedSub := .ok ()
    translateFile := .ok (some "out.srt")
    transcribeVad := .ok (some "out.srt")
    autoEmbedSub := .ok ()
    srtExists := true
    renamePure := .ok "video_embed.mp4"
    renameAuto := .ok "video_embed.mp4" }

/-- Parameters that pass validation: one audio input, nothing else. -/
def c10FailParams : TaskParams := { audio := some "a.mp3" }

/-- A stage environment whose transcription stage raises an ordinary
`Exception` with message "boom". -/
def c10FailEnv : StageEnv :=
  { c10Env with transcribeVad := .error (.other "boom") }

theorem c10_run_task_returns_result_or_interrupt_witness :
    validate_params c10FailParams = [] ∧
    (run_task c10FailParams c10FailEnv).1 = .ok ⟨false, none, ["boom"]⟩ ∧
    validate_params {} ≠ [] ∧
    run_task {} c10Env = (.ok ⟨false, none, validate_params {}⟩, []) := by
  have h1 := c10_run_task_returns_result_or_interrupt c10FailParams c10FailEnv
  have h2 := c10_run_task_returns_result_or_interrupt {} c10Env
  refine ⟨by decide, ?_, by decide, h2.2.1 (by decide)⟩
  exact h1.2.2.2 "boom" none (by decide) (fun _ => rfl) (Or.inr rfl)
